import Mathlib

/-
Verification of the envman synchronization core: env-file parsing and
serialization, snapshot differencing, the debounced file watcher, the
encryption codec, and the watch-mode sync loop (`sync.ts`).

JavaScript strings are modelled as `List Char`; JavaScript objects used as
string-keyed maps (`Record<string, string>`) are modelled as association
lists whose insertion operation replaces in place (as JS property
assignment does), so keys are unique by construction.
-/

namespace Envman

/-- JS strings, modelled as lists of characters. -/
abbrev Str := List Char

/-- Coerce a Lean string literal to the model's string type. -/
def str (s : String) : Str := s.data

/-- A JS `Record<string, string>`: an association list of key/value pairs. -/
abbrev RecordMap := List (Str × Str)

/-- `key in obj` for a JS object. -/
def hasKeyR (m : RecordMap) (k : Str) : Bool :=
  m.any (fun kv => kv.1 == k)

/-- `obj[key]` for a JS object (`none` when the property is absent). -/
def getR (m : RecordMap) (k : Str) : Option Str :=
  (m.find? (fun kv => kv.1 == k)).map (·.2)

/-- `obj[key] = v` for a JS object: replaces the value in place when the key
is already a property, otherwise appends the new property. -/
def insertR (m : RecordMap) (k v : Str) : RecordMap :=
  if hasKeyR m k then m.map (fun kv => if kv.1 == k then (k, v) else kv)
  else m ++ [(k, v)]

/-- A map whose keys are pairwise distinct (true of every JS object). -/
def NodupKeys (m : RecordMap) : Prop := (m.map Prod.fst).Nodup

instance (m : RecordMap) : Decidable (NodupKeys m) :=
  inferInstanceAs (Decidable ((m.map Prod.fst).Nodup))

/-- `content.split(sep)` for a one-character separator. -/
def splitOnC (c : Char) : Str → List Str
  | [] => [[]]
  | a :: rest =>
    match splitOnC c rest with
    | [] => [[]]
    | x :: xs => if a = c then [] :: x :: xs else (a :: x) :: xs

/-- `parts.join(sep)` for a one-character separator. -/
def joinC (c : Char) : List Str → Str
  | [] => []
  | [x] => x
  | x :: xs => x ++ c :: joinC c xs

/-- `s.trim()`: strip leading and trailing whitespace. -/
def trimC (s : Str) : Str :=
  ((s.dropWhile Char.isWhitespace).reverse.dropWhile Char.isWhitespace).reverse

section StrLemmas

theorem splitOnC_ne_nil (c : Char) (s : Str) : splitOnC c s ≠ [] := by
  cases s with
  | nil => simp [splitOnC]
  | cons a rest =>
    simp only [splitOnC]
    cases h : splitOnC c rest with
    | nil => simp
    | cons x xs =>
      by_cases hac : a = c <;> simp [hac]

theorem splitOnC_cons_sep (c : Char) (s : Str) :
    splitOnC c (c :: s) = [] :: splitOnC c s := by
  simp only [splitOnC]
  cases h : splitOnC c s with
  | nil => exact absurd h (splitOnC_ne_nil c s)
  | cons x xs => simp

theorem splitOnC_cons_ne (c a : Char) (s : Str) (h : a ≠ c) :
    splitOnC c (a :: s) =
      (a :: (splitOnC c s).headI) :: (splitOnC c s).tail := by
  simp only [splitOnC]
  cases hs : splitOnC c s with
  | nil => exact absurd hs (splitOnC_ne_nil c s)
  | cons x xs => simp [h]

/-- Splitting a separator-free prefix followed by the separator peels off
that prefix as the first field. -/
theorem splitOnC_append_sep (c : Char) (x r : Str) (hx : c ∉ x) :
    splitOnC c (x ++ c :: r) = x :: splitOnC c r := by
  induction x with
  | nil => simpa using splitOnC_cons_sep c r
  | cons a t ih =>
    have hac : a ≠ c := by intro h; exact hx (h ▸ List.mem_cons_self a t)
    have ht : c ∉ t := fun h => hx (List.mem_cons_of_mem a h)
    rw [List.cons_append, splitOnC_cons_ne c a (t ++ c :: r) hac, ih ht]
    simp

/-- Splitting a string that does not contain the separator yields a single
field. -/
theorem splitOnC_of_not_mem (c : Char) (s : Str) (hs : c ∉ s) :
    splitOnC c s = [s] := by
  induction s with
  | nil => rfl
  | cons a t ih =>
    have hac : a ≠ c := by intro h; exact hs (h ▸ List.mem_cons_self a t)
    have ht : c ∉ t := fun h => hs (List.mem_cons_of_mem a h)
    rw [splitOnC_cons_ne c a t hac, ih ht]
    simp

/-- `split` then `join` restores the original string. -/
theorem joinC_splitOnC (c : Char) (s : Str) : joinC c (splitOnC c s) = s := by
  induction s with
  | nil => rfl
  | cons a t ih =>
    by_cases hac : a = c
    · subst hac
      rw [splitOnC_cons_sep]
      cases h : splitOnC a t with
      | nil => exact absurd h (splitOnC_ne_nil a t)
      | cons x xs => rw [h] at ih; simpa [joinC] using ih
    · rw [splitOnC_cons_ne c a t hac]
      cases h : splitOnC c t with
      | nil => exact absurd h (splitOnC_ne_nil c t)
      | cons x xs =>
        rw [h] at ih
        cases xs with
        | nil => simpa [joinC] using congrArg (a :: ·) ih
        | cons y ys => simpa [joinC] using congrArg (a :: ·) ih

/-- A string whose first and last characters are not whitespace is fixed by
`trim`. -/
theorem trimC_eq_self (s : Str)
    (hh : ∀ ch, s.head? = some ch → ¬ch.isWhitespace)
    (hl : ∀ ch, s.getLast? = some ch → ¬ch.isWhitespace) :
    trimC s = s := by
  unfold trimC
  cases s with
  | nil => rfl
  | cons a t =>
    have ha : ¬a.isWhitespace := hh a rfl
    rw [List.dropWhile_cons_of_neg (by simpa using ha)]
    cases hr : (a :: t).reverse with
    | nil => simp at hr
    | cons b u =>
      have hb : (a :: t).getLast? = some b := by
        rw [List.getLast?_eq_head?_reverse, hr]; rfl
      have hbw : ¬b.isWhitespace := hl b hb
      rw [List.dropWhile_cons_of_neg (by simpa using hbw), ← hr]
      simp

end StrLemmas

section RecordLemmas

theorem hasKeyR_iff (m : RecordMap) (k : Str) :
    hasKeyR m k = true ↔ ∃ v, (k, v) ∈ m := by
  unfold hasKeyR
  rw [List.any_eq_true]
  constructor
  · rintro ⟨⟨k', v⟩, hm, he⟩
    exact ⟨v, by simpa using (beq_iff_eq.mp he) ▸ hm⟩
  · rintro ⟨v, hv⟩
    exact ⟨(k, v), hv, by simp⟩

theorem hasKeyR_eq_false_iff (m : RecordMap) (k : Str) :
    hasKeyR m k = false ↔ ∀ v, (k, v) ∉ m := by
  rw [← Bool.not_eq_true, hasKeyR_iff]
  push_neg
  rfl

theorem getR_eq_none_iff (m : RecordMap) (k : Str) :
    getR m k = none ↔ hasKeyR m k = false := by
  unfold getR
  rw [Option.map_eq_none', List.find?_eq_none, hasKeyR_eq_false_iff]
  constructor
  · intro h v hv
    have := h (k, v) hv
    simp at this
  · rintro h ⟨k', v⟩ hm
    simp only [beq_iff_eq]
    intro he
    exact h v (he ▸ hm)

theorem getR_eq_some_of_mem (m : RecordMap) (k v : Str)
    (hnd : NodupKeys m) (hv : (k, v) ∈ m) : getR m k = some v := by
  induction m with
  | nil => simp at hv
  | cons kv rest ih =>
    unfold NodupKeys at hnd
    simp only [List.map_cons, List.nodup_cons] at hnd
    rcases List.mem_cons.mp hv with h | h
    · subst h
      simp [getR, List.find?]
    · have hk : kv.1 ≠ k := by
        intro he
        exact hnd.1 (he ▸ List.mem_map_of_mem Prod.fst h)
      simp only [getR, List.find?, beq_iff_eq, hk, ite_false]
      by_cases hkv : (kv.1 == k) = true
      · exact absurd (beq_iff_eq.mp hkv) hk
      · simp only [hkv]
        exact ih hnd.2 h

theorem getR_eq_some_iff (m : RecordMap) (k v : Str) (hnd : NodupKeys m) :
    getR m k = some v ↔ (k, v) ∈ m := by
  constructor
  · intro h
    unfold getR at h
    rcases Option.map_eq_some'.mp h with ⟨⟨k', v'⟩, hf, he⟩
    have hk : k' = k := by simpa using List.find?_some hf
    have hm := List.mem_of_find?_eq_some hf
    simp only at he
    subst he; subst hk
    exact hm
  · exact getR_eq_some_of_mem m k v hnd

/-- Assigning a fresh property appends it. -/
theorem insertR_of_not_has (m : RecordMap) (k v : Str)
    (h : hasKeyR m k = false) : insertR m k v = m ++ [(k, v)] := by
  unfold insertR
  rw [h]
  simp

/-- Property assignment preserves key uniqueness. -/
theorem NodupKeys_insertR (m : RecordMap) (k v : Str) (hnd : NodupKeys m) :
    NodupKeys (insertR m k v) := by
  by_cases h : hasKeyR m k = true
  · unfold insertR
    rw [h]
    simp only [ite_true]
    unfold NodupKeys at hnd ⊢
    have : ((m.map fun kv => if kv.1 == k then (k, v) else kv).map Prod.fst)
        = m.map Prod.fst := by
      rw [List.map_map]
      apply List.map_congr_left
      intro kv _
      by_cases he : kv.1 = k <;> simp [he]
    rw [this]
    exact hnd
  · rw [Bool.not_eq_true] at h
    rw [insertR_of_not_has m k v h]
    unfold NodupKeys
    rw [List.map_append, List.nodup_append]
    refine ⟨hnd, by simp, ?_⟩
    intro a ha hb
    simp only [List.map_cons, List.map_nil, List.mem_singleton] at hb
    subst hb
    rcases List.mem_map.mp ha with ⟨⟨k', v'⟩, hm, hk⟩
    simp only at hk
    exact absurd ((hasKeyR_iff m a).mpr ⟨v', hk ▸ hm⟩) (by simp [h])

end RecordLemmas

/-! ## File watcher (`src/core/file-watcher.ts`)

`FileWatcher` keeps the last-seen file content (`lastContent`, the
Baseline), debounces raw change notifications, and on a debounce expiry
re-reads the file, diffs it against the Baseline and emits an
`env-changed` event when the diff is non-empty. -/

namespace FileWatcher

/-- The per-line body of `FileWatcher.parseEnvContent`'s `forEach`: skip a
blank or `#` line, split on `=` (first `=` wins, the rest is rejoined into
the value), trim key and value, assign. -/
def parseLineW (vars : RecordMap) (line : Str) : RecordMap :=
  let trimmed := trimC line
  if trimmed ≠ [] ∧ trimmed.head? ≠ some '#' then
    match splitOnC '=' trimmed with
    | [] => vars
    | key :: valueParts =>
      if key ≠ [] then insertR vars (trimC key) (trimC (joinC '=' valueParts))
      else vars
  else vars

/-- `FileWatcher.parseEnvContent`: split the content on newlines and fold
the per-line body over the lines. -/
def parseEnvContent (content : Str) : RecordMap :=
  (splitOnC '\n' content).foldl parseLineW []

/-- The three key lists of an `EnvChangeInfo` (`variables` field). -/
structure ChangesV where
  added : List Str
  modified : List Str
  removed : List Str
deriving DecidableEq, Repr

/-- The `type` discriminator of an `EnvChangeInfo`. -/
inductive ChangeT where
  | added
  | modified
deriving DecidableEq, Repr

/-- The event payload emitted on `env-changed` (the source's `variables`
field is named `vars` here; the `timestamp` field is wall-clock metadata
and is not modelled). -/
structure EnvChangeInfo where
  type : ChangeT
  vars : ChangesV
deriving DecidableEq, Repr

/-- The two loops of `FileWatcher.calculateChanges` over already-parsed
maps: a key of `newVars` absent from `oldVars` is added, present with a
different value is modified; a key of `oldVars` absent from `newVars` is
removed. -/
def diffVars (oldVars newVars : RecordMap) : ChangesV where
  added := (newVars.filter (fun kv => !hasKeyR oldVars kv.1)).map Prod.fst
  modified := (newVars.filter (fun kv =>
    hasKeyR oldVars kv.1 && decide (getR oldVars kv.1 ≠ some kv.2))).map Prod.fst
  removed := (oldVars.filter (fun kv => !hasKeyR newVars kv.1)).map Prod.fst

/-- `FileWatcher.calculateChanges`: parse both contents and diff them;
`type` is `modified` when something was added or removed, else `added`
(as written in the source). -/
def calculateChanges (oldContent newContent : Str) : EnvChangeInfo :=
  let d := diffVars (parseEnvContent oldContent) (parseEnvContent newContent)
  { type := if d.added ≠ [] ∨ d.removed ≠ [] then ChangeT.modified else ChangeT.added
    vars := d }

/-- Whether `processFileChange` treats a computed change set as non-empty
(the emission guard in the source). -/
def nonEmptyChange (e : EnvChangeInfo) : Prop :=
  e.vars.added ≠ [] ∨ e.vars.modified ≠ [] ∨ e.vars.removed ≠ []

instance (e : EnvChangeInfo) : Decidable (nonEmptyChange e) := by
  unfold nonEmptyChange; infer_instance

/-- `FileWatcher.processFileChange` on a successful re-read: diff the new
content against `lastContent`; when non-empty, update `lastContent` and
emit the event. Returns the new `lastContent` and the emitted event, if
any. -/
def processFileChange (lastContent newContent : Str) : Str × Option EnvChangeInfo :=
  let changes := calculateChanges lastContent newContent
  if nonEmptyChange changes then (newContent, some changes) else (lastContent, none)

/-- `FileWatcher.watch` initial Baseline: the file's content when the
initial read succeeds, the empty string when it throws (the `catch` branch
sets `lastContent = ''` and watching continues). -/
def watchInitialBaseline (readResult : Option Str) : Str :=
  readResult.getD []

/-- Debounced processing of a timed sequence of raw change notifications.
Each notification `(t, c)` records that the file content became `c` at
time `t` and restarts the single debounce timer to expire at `t + delay`
(`handleFileChange`). A pending timer survives only if the next
notification arrives strictly after its expiry; when it fires,
`processFileChange` runs on the content current at that moment. Returns
the list of emitted events. -/
def runNotifs (delay : Nat) (baseline : Str) : List (Nat × Str) → List EnvChangeInfo
  | [] => []
  | [(_, c)] => (processFileChange baseline c).2.toList
  | (t1, c1) :: (t2, c2) :: rest =>
    if t2 > t1 + delay then
      let r := processFileChange baseline c1
      r.2.toList ++ runNotifs delay r.1 ((t2, c2) :: rest)
    else
      runNotifs delay baseline ((t2, c2) :: rest)

/-- All notifications of the burst arrive within the debounce window of
their predecessor, so every timer but the last is reset before expiry. -/
def Burst (delay : Nat) (ns : List (Nat × Str)) : Prop :=
  ns.Chain' (fun a b => b.1 ≤ a.1 + delay)

instance (delay : Nat) (ns : List (Nat × Str)) : Decidable (Burst delay ns) :=
  inferInstanceAs (Decidable (ns.Chain' (fun a b : Nat × Str => b.1 ≤ a.1 + delay)))

end FileWatcher

/-! ## Env-file parsing and serialization (`src/utils/env-parser.ts`) -/

namespace EnvParser

/-- The value post-processing of `parseEnvFile`:
`value.replace(/^['"]|['"]$/g, '')` removes one leading and one trailing
quote character (single or double), independently. -/
def stripQuotes (s : Str) : Str :=
  let s1 := if s.head? = some '\'' ∨ s.head? = some '"' then s.drop 1 else s
  if s1.getLast? = some '\'' ∨ s1.getLast? = some '"' then s1.dropLast else s1

/-- The per-line body of `parseEnvFile`'s `forEach`: like the watcher's,
but a line with no `=` at all is skipped (`valueParts.length > 0`) and the
value is unquoted. -/
def parseLineF (vars : RecordMap) (line : Str) : RecordMap :=
  let trimmed := trimC line
  if trimmed ≠ [] ∧ trimmed.head? ≠ some '#' then
    match splitOnC '=' trimmed with
    | [] => vars
    | key :: valueParts =>
      if key ≠ [] ∧ valueParts ≠ [] then
        insertR vars (trimC key) (stripQuotes (trimC (joinC '=' valueParts)))
      else vars
  else vars

/-- `parseEnvFile` applied to the content of an existing file. The `fs`
read is abstracted to the content argument. -/
def parseEnvFile (content : Str) : RecordMap :=
  (splitOnC '\n' content).foldl parseLineF []

/-- The file content written by `writeEnvFile`, and identically by
`performPull`'s inline writer: `KEY=VALUE` lines joined by newlines, plus
a trailing newline. -/
def serializeEnv (vars : RecordMap) : Str :=
  joinC '\n' (vars.map (fun kv => kv.1 ++ '=' :: kv.2)) ++ ['\n']

end EnvParser

/-! ## Encryption (`src/core/encryption.ts`)

The platform primitives (node `crypto`: SHA-256 and AES-256-GCM) are not
code of this repository; they are modelled abstractly by a `CryptoModel`:
an arbitrary key-derivation hash, an arbitrary CTR keystream indexed by
(key, iv, position) — GCM encrypts by XORing the plaintext with such a
keystream — and an arbitrary authentication-tag function over
(key, iv, ciphertext), which GCM's `final()` recomputes and compares
against the supplied tag, throwing on mismatch. All theorems below hold
for every instantiation of these primitives. Plaintext bytes are the
character codes; `iv` is the random nonce, supplied as an argument since
randomness is external. -/

namespace Encryption

/-- Abstract model of the platform crypto primitives. -/
structure CryptoModel where
  hash : Str → List Nat
  keystream : List Nat → List Nat → Nat → Nat
  tagOf : List Nat → List Nat → List Nat → List Nat

/-- `EncryptionManager`: holds the key-derivation input (the project
name). -/
structure EncryptionManager where
  derivationKey : Str

/-- `deriveKey`: hash the derivation key to obtain the symmetric key. -/
def deriveKey (C : CryptoModel) (m : EncryptionManager) : List Nat :=
  C.hash m.derivationKey

/-- CTR-mode encryption: XOR each plaintext byte with the keystream byte
at its position. -/
def ctrEncrypt (ks : Nat → Nat) : Nat → Str → List Nat
  | _, [] => []
  | i, ch :: rest => (ch.toNat ^^^ ks i) :: ctrEncrypt ks (i + 1) rest

/-- CTR-mode decryption: XOR each ciphertext byte with the keystream byte
at its position. -/
def ctrDecrypt (ks : Nat → Nat) : Nat → List Nat → Str
  | _, [] => []
  | i, b :: rest => Char.ofNat (b ^^^ ks i) :: ctrDecrypt ks (i + 1) rest

/-- The record returned by `EncryptionManager.encryptValue`. -/
structure EncryptedValue where
  encryptedValue : List Nat
  iv : List Nat
  authTag : List Nat
deriving DecidableEq, Repr

/-- `EncryptionManager.encryptValue`: derive the key, encrypt under the
fresh `iv`, and return ciphertext, iv and the cipher's auth tag. -/
def encryptValue (C : CryptoModel) (m : EncryptionManager) (iv : List Nat)
    (value : Str) : EncryptedValue :=
  let key := deriveKey C m
  let ct := ctrEncrypt (C.keystream key iv) 0 value
  { encryptedValue := ct, iv := iv, authTag := C.tagOf key iv ct }

/-- The failure thrown by `decipher.final()` when the supplied auth tag
does not match the tag recomputed over the ciphertext. -/
inductive DecryptionError where
  | authTagMismatch
deriving DecidableEq, Repr

/-- `EncryptionManager.decryptValue`: derive the key, recompute the tag
over the ciphertext and fail unless it matches the supplied one, then
decrypt. It never returns a value without a matching tag. -/
def decryptValue (C : CryptoModel) (m : EncryptionManager)
    (encryptedValue iv authTag : List Nat) : Except DecryptionError Str :=
  let key := deriveKey C m
  if authTag = C.tagOf key iv encryptedValue then
    Except.ok (ctrDecrypt (C.keystream key iv) 0 encryptedValue)
  else
    Except.error DecryptionError.authTagMismatch

/-- One element of the encrypted snapshot exchanged with the remote
store. -/
structure EncryptedVariable where
  key : Str
  encryptedValue : List Nat
  iv : List Nat
  authTag : List Nat
  isSecret : Bool
deriving DecidableEq, Repr

/-- The message of the error thrown by `decryptVariables` when one record
fails: `Failed to decrypt variable ${key}`. -/
def failMsg (k : Str) : Str :=
  str "Failed to decrypt variable " ++ k

/-- The `forEach` loop of `decryptVariables` with its accumulated `vars`
object: each record is decrypted in order; the first failure aborts the
whole batch with an error naming that record's key. -/
def decryptVariablesAux (C : CryptoModel) (m : EncryptionManager)
    (vars : RecordMap) : List EncryptedVariable → Except Str RecordMap
  | [] => Except.ok vars
  | item :: rest =>
    match decryptValue C m item.encryptedValue item.iv item.authTag with
    | Except.ok v => decryptVariablesAux C m (insertR vars item.key v) rest
    | Except.error _ => Except.error (failMsg item.key)

/-- `EncryptionManager.decryptVariables`. -/
def decryptVariables (C : CryptoModel) (m : EncryptionManager)
    (encrypted : List EncryptedVariable) : Except Str RecordMap :=
  decryptVariablesAux C m [] encrypted

end Encryption

/-! ## The sync command (`src/commands/sync.ts`) -/

namespace Sync

open FileWatcher EnvParser

/-- `performPull`, as a function of the (already decrypted) remote
response and the local file content. `none` response models
`!response.success || !response.data`; the result is the new file content
when `fs.writeFileSync` runs, `none` when the pull leaves the file
untouched. `hasChanges` asks whether some remote key is absent from the
parsed local file or carries a different value there. -/
def performPull (response : Option RecordMap) (localContent : Str) : Option Str :=
  match response with
  | none => none
  | some remoteVars =>
    let localVars := parseEnvFile localContent
    let hasChanges := remoteVars.any (fun kv =>
      !hasKeyR localVars kv.1 || decide (getR localVars kv.1 ≠ some kv.2))
    if hasChanges then some (serializeEnv remoteVars) else none

/-- `checkRemoteChanges`: pull, test `hasNewOrChanged` (same predicate as
`performPull.hasChanges`: only remote-side keys are examined), and when it
holds run `performPull` — modelled with the same response for the two
back-to-back API calls of one tick. Returns the written content, if
any. -/
def checkRemoteChanges (response : Option RecordMap) (localContent : Str) :
    Option Str :=
  match response with
  | none => none
  | some remoteVars =>
    let localVars := parseEnvFile localContent
    let hasNewOrChanged := remoteVars.any (fun kv =>
      !hasKeyR localVars kv.1 || decide (getR localVars kv.1 ≠ some kv.2))
    if hasNewOrChanged then performPull (some remoteVars) localContent else none

/-- The observable state of one watch-mode session (`startWatchMode`):
the local file, the watcher's Baseline (`lastContent`) and pending
debounce flag, the number of `performPush` calls currently awaited, the
emitted events, and the direction flags. -/
structure SyncState where
  fileContent : Str
  baseline : Str
  timerPending : Bool
  pushesInFlight : Nat
  emissions : List EnvChangeInfo
  pushOnly : Bool
  pullOnly : Bool
deriving DecidableEq, Repr

/-- The scheduler events of a watch-mode session. Node's event loop is
single-threaded, so a session is an arbitrary interleaving of these
atomic steps: an external edit lands on disk (raw notification restarts
the debounce timer), the debounce timer fires, an in-flight push's
network call resolves, a poll tick runs. -/
inductive SyncEv where
  | localEdit (c : Str)
  | debounceFire
  | pushComplete
  | pollTick (response : Option RecordMap)

/-- One step of the watch-mode session.

* `localEdit c`: the file becomes `c`; `handleFileChange` restarts the
  debounce timer.
* `debounceFire`: `processFileChange` re-reads the file and diffs against
  the Baseline; on a non-empty diff it updates the Baseline, emits the
  event, and the `env-changed` handler starts `performPush` unless the
  session is pull-only. Nothing guards on `pushesInFlight`.
* `pushComplete`: one awaited `performPush` resolves.
* `pollTick response`: `checkRemoteChanges` (skipped when push-only); a
  write lands on the local file, which the watcher sees as a raw
  notification; no Baseline resynchronization is performed. -/
def step (s : SyncState) : SyncEv → SyncState
  | SyncEv.localEdit c => { s with fileContent := c, timerPending := true }
  | SyncEv.debounceFire =>
    if s.timerPending then
      match FileWatcher.processFileChange s.baseline s.fileContent with
      | (b', some ev) =>
        let s1 := { s with timerPending := false, baseline := b',
                           emissions := s.emissions ++ [ev] }
        if s.pullOnly then s1
        else { s1 with pushesInFlight := s1.pushesInFlight + 1 }
      | (_, none) => { s with timerPending := false }
    else s
  | SyncEv.pushComplete => { s with pushesInFlight := s.pushesInFlight - 1 }
  | SyncEv.pollTick response =>
    if s.pushOnly then s
    else
      match checkRemoteChanges response s.fileContent with
      | none => s
      | some newContent =>
        { s with fileContent := newContent, timerPending := true }

/-- Run a session from a state through a sequence of scheduler events. -/
def run (s : SyncState) (evs : List SyncEv) : SyncState :=
  evs.foldl step s

end Sync

/-! ## Helper lemmas -/

section Helpers

theorem ctrDecrypt_ctrEncrypt (ks : Nat → Nat) (v : Str) :
    ∀ i, Encryption.ctrDecrypt ks i (Encryption.ctrEncrypt ks i v) = v := by
  induction v with
  | nil => intro i; rfl
  | cons c rest ih =>
    intro i
    simp only [Encryption.ctrEncrypt, Encryption.ctrDecrypt]
    rw [Nat.xor_cancel_right, Char.ofNat_toNat, ih]

theorem hasKeyR_of_getR (m : RecordMap) (k v : Str) (h : getR m k = some v) :
    hasKeyR m k = true := by
  by_contra hc
  rw [Bool.not_eq_true] at hc
  rw [(getR_eq_none_iff m k).mpr hc] at h
  exact Option.noConfusion h

theorem hasKeyR_perm {m m' : RecordMap} (h : m.Perm m') (k : Str) :
    hasKeyR m k = hasKeyR m' k := by
  cases hb : hasKeyR m' k with
  | true =>
    rcases (hasKeyR_iff m' k).mp hb with ⟨v, hv⟩
    exact (hasKeyR_iff m k).mpr ⟨v, h.mem_iff.mpr hv⟩
  | false =>
    rw [hasKeyR_eq_false_iff]
    intro v hv
    exact (hasKeyR_eq_false_iff m' k).mp hb v (h.mem_iff.mp hv)

theorem NodupKeys_perm {m m' : RecordMap} (h : m.Perm m') (hm : NodupKeys m) :
    NodupKeys m' :=
  ((h.map Prod.fst).nodup_iff).mp hm

theorem getR_perm {m m' : RecordMap} (h : m.Perm m') (hm : NodupKeys m)
    (k : Str) : getR m k = getR m' k := by
  have hm' : NodupKeys m' := NodupKeys_perm h hm
  cases hg : getR m k with
  | some v =>
    rw [getR_eq_some_iff m k v hm] at hg
    exact ((getR_eq_some_iff m' k v hm').mpr (h.mem_iff.mp hg)).symm
  | none =>
    rw [getR_eq_none_iff] at hg
    symm
    rw [getR_eq_none_iff, ← hasKeyR_perm h]
    exact hg

theorem mem_diffVars_added (b o : RecordMap) (k : Str) :
    k ∈ (FileWatcher.diffVars b o).added ↔
      hasKeyR o k = true ∧ hasKeyR b k = false := by
  unfold FileWatcher.diffVars
  simp only [List.mem_map, List.mem_filter]
  constructor
  · rintro ⟨⟨k', v⟩, ⟨hm, hf⟩, hk⟩
    simp only at hk
    subst hk
    exact ⟨(hasKeyR_iff o k').mpr ⟨v, hm⟩, by simpa using hf⟩
  · rintro ⟨ho, hb⟩
    rcases (hasKeyR_iff o k).mp ho with ⟨v, hv⟩
    exact ⟨(k, v), ⟨hv, by simp [hb]⟩, rfl⟩

theorem mem_diffVars_removed (b o : RecordMap) (k : Str) :
    k ∈ (FileWatcher.diffVars b o).removed ↔
      hasKeyR b k = true ∧ hasKeyR o k = false := by
  unfold FileWatcher.diffVars
  simp only [List.mem_map, List.mem_filter]
  constructor
  · rintro ⟨⟨k', v⟩, ⟨hm, hf⟩, hk⟩
    simp only at hk
    subst hk
    exact ⟨(hasKeyR_iff b k').mpr ⟨v, hm⟩, by simpa using hf⟩
  · rintro ⟨hb, ho⟩
    rcases (hasKeyR_iff b k).mp hb with ⟨v, hv⟩
    exact ⟨(k, v), ⟨hv, by simp [ho]⟩, rfl⟩

theorem mem_diffVars_modified (b o : RecordMap) (k : Str) (ho : NodupKeys o) :
    k ∈ (FileWatcher.diffVars b o).modified ↔
      ∃ v w, getR b k = some v ∧ getR o k = some w ∧ v ≠ w := by
  unfold FileWatcher.diffVars
  simp only [List.mem_map, List.mem_filter]
  constructor
  · rintro ⟨⟨k', w⟩, ⟨hm, hf⟩, hk⟩
    simp only at hk
    subst hk
    rw [Bool.and_eq_true, decide_eq_true_iff] at hf
    obtain ⟨hb, hne⟩ := hf
    have hw : getR o k' = some w := getR_eq_some_of_mem o k' w ho hm
    cases hv : getR b k' with
    | none => rw [getR_eq_none_iff] at hv; rw [hv] at hb; exact absurd hb (by simp)
    | some v =>
      refine ⟨v, w, rfl, hw, ?_⟩
      intro he
      exact hne (by rw [hv, he])
  · rintro ⟨v, w, hv, hw, hne⟩
    have hm := (getR_eq_some_iff o k w ho).mp hw
    refine ⟨(k, w), ⟨hm, ?_⟩, rfl⟩
    rw [Bool.and_eq_true, decide_eq_true_iff]
    refine ⟨hasKeyR_of_getR b k v hv, ?_⟩
    rw [hv]
    intro he
    exact hne (by injection he)

theorem diffVars_self (S : RecordMap) (h : NodupKeys S) :
    FileWatcher.diffVars S S = ⟨[], [], []⟩ := by
  unfold FileWatcher.diffVars
  have e1 : S.filter (fun kv => !hasKeyR S kv.1) = [] := by
    apply List.filter_eq_nil_iff.mpr
    intro kv hkv
    simp [(hasKeyR_iff S kv.1).mpr ⟨kv.2, by simpa using hkv⟩]
  have e2 : S.filter (fun kv =>
      hasKeyR S kv.1 && decide (getR S kv.1 ≠ some kv.2)) = [] := by
    apply List.filter_eq_nil_iff.mpr
    intro kv hkv
    have := getR_eq_some_of_mem S kv.1 kv.2 h (by simpa using hkv)
    simp [this]
  rw [e1, e2]
  rfl

theorem diffVars_nil_left (m : RecordMap) :
    FileWatcher.diffVars [] m = ⟨m.map Prod.fst, [], []⟩ := by
  unfold FileWatcher.diffVars
  have hk : ∀ k, hasKeyR [] k = false := fun _ => rfl
  simp [hk]

theorem NodupKeys_parseLineW (vars : RecordMap) (line : Str)
    (h : NodupKeys vars) : NodupKeys (FileWatcher.parseLineW vars line) := by
  unfold FileWatcher.parseLineW
  by_cases h1 : trimC line ≠ [] ∧ (trimC line).head? ≠ some '#'
  · rw [if_pos h1]
    cases hs : splitOnC '=' (trimC line) with
    | nil => exact h
    | cons key valueParts =>
      show NodupKeys (if key ≠ [] then
        insertR vars (trimC key) (trimC (joinC '=' valueParts)) else vars)
      by_cases h2 : key ≠ []
      · rw [if_pos h2]
        exact NodupKeys_insertR _ _ _ h
      · rw [if_neg h2]
        exact h
  · rw [if_neg h1]
    exact h

theorem NodupKeys_parseEnvContent (c : Str) :
    NodupKeys (FileWatcher.parseEnvContent c) := by
  unfold FileWatcher.parseEnvContent
  generalize splitOnC '\n' c = lines
  have : ∀ (ls : List Str) (acc : RecordMap), NodupKeys acc →
      NodupKeys (ls.foldl FileWatcher.parseLineW acc) := by
    intro ls
    induction ls with
    | nil => intro acc h; exact h
    | cons l rest ih =>
      intro acc h
      exact ih _ (NodupKeys_parseLineW acc l h)
  exact this lines [] (by simp [NodupKeys])

theorem calculateChanges_self_empty (c : Str) :
    ¬FileWatcher.nonEmptyChange (FileWatcher.calculateChanges c c) := by
  unfold FileWatcher.nonEmptyChange FileWatcher.calculateChanges
  rw [diffVars_self _ (NodupKeys_parseEnvContent c)]
  simp

/-- `processFileChange` on an unchanged content updates nothing and emits
nothing. -/
theorem processFileChange_self (c : Str) :
    FileWatcher.processFileChange c c = (c, none) := by
  unfold FileWatcher.processFileChange
  rw [if_neg (calculateChanges_self_empty c)]

/-- Within a burst, only the last notification's debounce timer survives,
so the run reduces to a single `processFileChange` on the final content. -/
theorem runNotifs_burst (delay : Nat) (baseline : Str) (ns : List (Nat × Str))
    (hb : FileWatcher.Burst delay ns) (hne : ns ≠ []) :
    FileWatcher.runNotifs delay baseline ns =
      (FileWatcher.processFileChange baseline (ns.getLast hne).2).2.toList := by
  induction ns generalizing baseline with
  | nil => exact absurd rfl hne
  | cons p rest ih =>
    cases rest with
    | nil =>
      obtain ⟨t, c⟩ := p
      rfl
    | cons q rest' =>
      obtain ⟨t1, c1⟩ := p
      obtain ⟨t2, c2⟩ := q
      have hchain := List.chain'_cons.mp hb
      have hle : t2 ≤ t1 + delay := hchain.1
      have htail : FileWatcher.Burst delay ((t2, c2) :: rest') := hchain.2
      have hstep : FileWatcher.runNotifs delay baseline
          ((t1, c1) :: (t2, c2) :: rest') =
          FileWatcher.runNotifs delay baseline ((t2, c2) :: rest') := by
        conv_lhs => rw [FileWatcher.runNotifs]
        rw [if_neg (by omega)]
      rw [hstep, ih baseline htail (by simp)]
      have hg : ((t1, c1) :: (t2, c2) :: rest').getLast hne =
          ((t2, c2) :: rest').getLast (by simp) :=
        List.getLast_cons (by simp)
      rw [hg]

end Helpers

/-! ## The claims -/

/-- Claim C3 counterexample: a burst of two raw notifications within the
debounce window whose net effect restores the pre-edit content produces
zero emitted events, not exactly one — the emission is skipped when the
net ChangeSet is empty. -/
theorem c3_counterexample :
    FileWatcher.Burst 2000 [(0, str "A=2\n"), (100, str "A=1\n")] ∧
    FileWatcher.runNotifs 2000 (str "A=1\n")
      [(0, str "A=2\n"), (100, str "A=1\n")] = [] := by
  constructor
  · simp [FileWatcher.Burst, List.chain'_cons]
  · rfl

/-- Claim C3 (amended): for any burst of raw notifications within the
debounce window, the detector emits at most one change event — exactly one
carrying `diff(pre-edit Baseline, final content)` when that net diff is
non-empty, and none when the burst's net effect leaves the parsed content
unchanged. -/
theorem c3_burst_coalescing (delay : Nat) (baseline : Str)
    (ns : List (Nat × Str)) (hb : FileWatcher.Burst delay ns)
    (hne : ns ≠ []) :
    FileWatcher.runNotifs delay baseline ns =
      if FileWatcher.nonEmptyChange
          (FileWatcher.calculateChanges baseline (ns.getLast hne).2) then
        [FileWatcher.calculateChanges baseline (ns.getLast hne).2]
      else [] := by
  rw [runNotifs_burst delay baseline ns hb hne]
  unfold FileWatcher.processFileChange
  by_cases h : FileWatcher.nonEmptyChange
      (FileWatcher.calculateChanges baseline (ns.getLast hne).2)
  · rw [if_pos h, if_pos h]
    rfl
  · rw [if_neg h, if_neg h]
    rfl

/-- Witness for C3: the spec's scenario — Baseline `A=1`, edits to `A=2`
then `A=3` within 500ms against a 2000ms debounce — emits exactly one
event, with `A` modified. -/
theorem c3_burst_coalescing_witness :
    FileWatcher.runNotifs 2000 (str "A=1\n")
      [(0, str "A=2\n"), (300, str "A=3\n")] =
      [⟨FileWatcher.ChangeT.added, ⟨[], [str "A"], []⟩⟩] := by
  rw [c3_burst_coalescing 2000 (str "A=1\n")
    [(0, str "A=2\n"), (300, str "A=3\n")]
    (by simp [FileWatcher.Burst, List.chain'_cons]) (by simp)]
  decide

/-- Claim C4 counterexample: from a quiescent bidirectional session, two
local edits each followed by a debounce expiry — with the first push's
network call still unresolved (no push completion occurs in the trace) —
leave two pushes in flight: nothing queues or coalesces the second
`performPush` behind the first. -/
theorem c4_counterexample :
    (Sync.run ⟨str "A=1\n", str "A=1\n", false, 0, [], false, false⟩
      [Sync.SyncEv.localEdit (str "A=2\n"), Sync.SyncEv.debounceFire,
       Sync.SyncEv.localEdit (str "A=3\n"), Sync.SyncEv.debounceFire]
      ).pushesInFlight = 2 := by
  rfl

/-- Claim C4 (amended): the watch-mode session keeps no in-flight guard:
whenever the debounce timer fires on a non-empty diff in a session that is
not pull-only, the `env-changed` handler starts a new `performPush`
unconditionally, raising the number of in-flight pushes from any `n` to
`n + 1` — so a local-change event arriving while a previous push is still
in flight immediately starts a second concurrent push rather than queuing
or coalescing it. -/
theorem c4_no_push_serialization (s : Sync.SyncState)
    (hp : s.timerPending = true) (ho : s.pullOnly = false)
    (hc : FileWatcher.nonEmptyChange
      (FileWatcher.calculateChanges s.baseline s.fileContent)) :
    (Sync.step s Sync.SyncEv.debounceFire).pushesInFlight =
      s.pushesInFlight + 1 := by
  unfold Sync.step
  rw [hp]
  unfold FileWatcher.processFileChange
  rw [if_pos hc]
  simp [ho]

theorem pullCond_eq (lv : RecordMap) (kv : Str × Str) :
    (!hasKeyR lv kv.1 || decide (getR lv kv.1 ≠ some kv.2)) =
      decide (getR lv kv.1 ≠ some kv.2) := by
  cases h : hasKeyR lv kv.1
  · have hn := (getR_eq_none_iff lv kv.1).mpr h
    simp [hn]
  · simp

theorem anyPullCond_iff (vars lv : RecordMap) :
    (vars.any fun kv =>
      !hasKeyR lv kv.1 || decide (getR lv kv.1 ≠ some kv.2)) = true ↔
      ∃ kv ∈ vars, getR lv kv.1 ≠ some kv.2 := by
  rw [List.any_eq_true]
  constructor
  · rintro ⟨kv, hm, hc⟩
    rw [pullCond_eq, decide_eq_true_iff] at hc
    exact ⟨kv, hm, hc⟩
  · rintro ⟨kv, hm, hc⟩
    exact ⟨kv, hm, by rw [pullCond_eq, decide_eq_true_iff]; exact hc⟩

/-- `performPull` writes the serialized remote variables exactly when some
remote key is absent from the parsed local file or differs there. -/
theorem performPull_eq (vars : RecordMap) (lc : Str) :
    Sync.performPull (some vars) lc =
      if ∃ kv ∈ vars, getR (EnvParser.parseEnvFile lc) kv.1 ≠ some kv.2
      then some (EnvParser.serializeEnv vars) else none := by
  simp only [Sync.performPull]
  by_cases h : ∃ kv ∈ vars, getR (EnvParser.parseEnvFile lc) kv.1 ≠ some kv.2
  · rw [if_pos ((anyPullCond_iff vars _).mpr h), if_pos h]
  · rw [if_neg (fun hc => h ((anyPullCond_iff vars _).mp hc)), if_neg h]

theorem checkRemoteChanges_eq (vars : RecordMap) (lc : Str) :
    Sync.checkRemoteChanges (some vars) lc = Sync.performPull (some vars) lc := by
  simp only [Sync.checkRemoteChanges]
  by_cases h : (vars.any fun kv =>
      !hasKeyR (EnvParser.parseEnvFile lc) kv.1 ||
        decide (getR (EnvParser.parseEnvFile lc) kv.1 ≠ some kv.2)) = true
  · rw [if_pos h]
  · rw [if_neg h, performPull_eq,
      if_neg (fun hc => h ((anyPullCond_iff vars _).mpr hc))]

theorem filter_map_ne_nil_iff {α β : Type} (l : List α) (p : α → Bool)
    (f : α → β) : ((l.filter p).map f ≠ []) ↔ ∃ a ∈ l, p a = true := by
  rw [Ne, List.map_eq_nil_iff, List.filter_eq_nil_iff]
  push_neg
  simp

/-- The pull condition is exactly "the diff of the remote snapshot against
the parsed local file has an added or modified key". -/
theorem diff_nonempty_iff_pullCond (lv vars : RecordMap) :
    ((FileWatcher.diffVars lv vars).added ≠ [] ∨
      (FileWatcher.diffVars lv vars).modified ≠ []) ↔
      ∃ kv ∈ vars, getR lv kv.1 ≠ some kv.2 := by
  simp only [FileWatcher.diffVars]
  constructor
  · rintro (h | h)
    · obtain ⟨kv, hm, hp⟩ := (filter_map_ne_nil_iff _ _ _).mp h
      refine ⟨kv, hm, ?_⟩
      have hk : hasKeyR lv kv.1 = false := by simpa using hp
      rw [(getR_eq_none_iff lv kv.1).mpr hk]
      simp
    · obtain ⟨kv, hm, hp⟩ := (filter_map_ne_nil_iff _ _ _).mp h
      rw [Bool.and_eq_true, decide_eq_true_iff] at hp
      exact ⟨kv, hm, hp.2⟩
  · rintro ⟨kv, hm, hne⟩
    by_cases hk : hasKeyR lv kv.1 = true
    · right
      refine (filter_map_ne_nil_iff _ _ _).mpr ⟨kv, hm, ?_⟩
      rw [Bool.and_eq_true, decide_eq_true_iff]
      exact ⟨hk, hne⟩
    · left
      refine (filter_map_ne_nil_iff _ _ _).mpr ⟨kv, hm, ?_⟩
      rw [Bool.not_eq_true] at hk
      simp [hk]

/-- Claim C2 counterexample: local file `A=1`,`B=2`, remote snapshot
`{A:1}` — the ChangeSet of the remote snapshot against the current local
content has a removed key (`B`), yet the poll tick writes nothing: the
pull condition inspects only remote-side keys, so a removal never
triggers the write. -/
theorem c2_counterexample :
    (FileWatcher.diffVars (EnvParser.parseEnvFile (str "A=1\nB=2\n"))
      [(str "A", str "1")]).removed ≠ [] ∧
    Sync.checkRemoteChanges (some [(str "A", str "1")])
      (str "A=1\nB=2\n") = none := by
  constructor
  · decide
  · rfl

/-- Claim C2 (amended): on a poll tick, the remote snapshot is pulled,
decrypted and compared key-by-key against the current local file content;
the decrypted snapshot is written over the local file iff the resulting
ChangeSet has an added or modified key. A remote snapshot from which a
locally-present key is absent (a pure removal) does not trigger the
write, and an unsuccessful or empty response never writes. -/
theorem c2_poll_pull_condition (vars : RecordMap) (lc : Str) :
    Sync.checkRemoteChanges none lc = none ∧
    Sync.checkRemoteChanges (some vars) lc =
      (if (FileWatcher.diffVars (EnvParser.parseEnvFile lc) vars).added ≠ [] ∨
          (FileWatcher.diffVars (EnvParser.parseEnvFile lc) vars).modified ≠ []
       then some (EnvParser.serializeEnv vars) else none) := by
  refine ⟨rfl, ?_⟩
  rw [checkRemoteChanges_eq, performPull_eq]
  by_cases h : ∃ kv ∈ vars, getR (EnvParser.parseEnvFile lc) kv.1 ≠ some kv.2
  · rw [if_pos h, if_pos ((diff_nonempty_iff_pullCond _ vars).mpr h)]
  · rw [if_neg h, if_neg (fun hc => h ((diff_nonempty_iff_pullCond _ vars).mp hc))]

/-- Claim C10: `performPull` leaves the local file untouched when the
response is unsuccessful or empty, and when every remote key is already
present in the parsed local file with an equal value — regardless of any
extra local-only keys; when it does write, the new content is exactly the
serialization of the remote variables, and some remote key was new or
different. -/
theorem c10_performPull_frame (vars : RecordMap) (lc : Str) :
    Sync.performPull none lc = none ∧
    ((∀ kv ∈ vars, getR (EnvParser.parseEnvFile lc) kv.1 = some kv.2) →
      Sync.performPull (some vars) lc = none) ∧
    (∀ out, Sync.performPull (some vars) lc = some out →
      out = EnvParser.serializeEnv vars ∧
      ∃ kv ∈ vars, getR (EnvParser.parseEnvFile lc) kv.1 ≠ some kv.2) := by
  refine ⟨rfl, ?_, ?_⟩
  · intro hall
    rw [performPull_eq, if_neg]
    rintro ⟨kv, hm, hne⟩
    exact hne (hall kv hm)
  · intro out hout
    rw [performPull_eq] at hout
    by_cases h : ∃ kv ∈ vars, getR (EnvParser.parseEnvFile lc) kv.1 ≠ some kv.2
    · rw [if_pos h] at hout
      injection hout with he
      exact ⟨he.symm, h⟩
    · rw [if_neg h] at hout
      exact absurd hout (by simp)

/-- Witness for C10: remote `{A:1}` against local `A=1`,`B=2` — every
remote key matches locally, the extra local key `B` notwithstanding, so
no write happens. -/
theorem c10_performPull_frame_witness :
    Sync.performPull (some [(str "A", str "1")]) (str "A=1\nB=2\n") = none :=
  (c10_performPull_frame [(str "A", str "1")] (str "A=1\nB=2\n")).2.1
    (by decide)

/-- Claim C1 counterexample: quiescent bidirectional session on local file
`A=1` with Baseline in sync; a poll tick pulls remote `{B:2}` and writes
`B=2` over the file. The Baseline is not resynchronized to the new
content, and the very next debounce expiry — with no local edit anywhere
in the trace — emits a change event (and starts a push): the pull-triggered
write alone produced a LocalChangeDetector emission. -/
theorem c1_counterexample :
    (Sync.step ⟨str "A=1\n", str "A=1\n", false, 0, [], false, false⟩
      (Sync.SyncEv.pollTick (some [(str "B", str "2")]))).fileContent ≠
      str "A=1\n" ∧
    (Sync.step ⟨str "A=1\n", str "A=1\n", false, 0, [], false, false⟩
      (Sync.SyncEv.pollTick (some [(str "B", str "2")]))).baseline =
      str "A=1\n" ∧
    (Sync.run ⟨str "A=1\n", str "A=1\n", false, 0, [], false, false⟩
      [Sync.SyncEv.pollTick (some [(str "B", str "2")]),
       Sync.SyncEv.debounceFire]).emissions.length = 1 ∧
    (Sync.run ⟨str "A=1\n", str "A=1\n", false, 0, [], false, false⟩
      [Sync.SyncEv.pollTick (some [(str "B", str "2")]),
       Sync.SyncEv.debounceFire]).pushesInFlight = 1 := by
  refine ⟨by decide, rfl, rfl, rfl⟩

/-- Claim C1 (amended): after a pull-driven write the Baseline is *not*
resynchronized — it still holds the pre-pull content — so the watcher
treats the write as a local change: the next debounce expiry emits one
feedback event carrying the diff of the pulled content against the old
Baseline. Only that emission brings the Baseline up to date, after which a
further notification with the same content produces no second emission. -/
theorem c1_no_baseline_resync (s : Sync.SyncState) (vars : RecordMap)
    (hq : s.baseline = s.fileContent) (hpo : s.pushOnly = false)
    (hw : Sync.checkRemoteChanges (some vars) s.fileContent ≠ none)
    (hch : FileWatcher.nonEmptyChange
      (FileWatcher.calculateChanges s.fileContent (EnvParser.serializeEnv vars))) :
    (Sync.step s (Sync.SyncEv.pollTick (some vars))).baseline = s.baseline ∧
    (Sync.step s (Sync.SyncEv.pollTick (some vars))).fileContent =
      EnvParser.serializeEnv vars ∧
    (Sync.run s [Sync.SyncEv.pollTick (some vars),
        Sync.SyncEv.debounceFire]).emissions =
      s.emissions ++
        [FileWatcher.calculateChanges s.fileContent (EnvParser.serializeEnv vars)] ∧
    (Sync.run s [Sync.SyncEv.pollTick (some vars),
        Sync.SyncEv.debounceFire]).baseline = EnvParser.serializeEnv vars ∧
    (Sync.run s [Sync.SyncEv.pollTick (some vars), Sync.SyncEv.debounceFire,
        Sync.SyncEv.localEdit (EnvParser.serializeEnv vars),
        Sync.SyncEv.debounceFire]).emissions =
      s.emissions ++
        [FileWatcher.calculateChanges s.fileContent (EnvParser.serializeEnv vars)] := by
  have hsome : Sync.checkRemoteChanges (some vars) s.fileContent =
      some (EnvParser.serializeEnv vars) := by
    rw [checkRemoteChanges_eq, performPull_eq] at hw ⊢
    by_cases h : ∃ kv ∈ vars, getR (EnvParser.parseEnvFile s.fileContent) kv.1 ≠ some kv.2
    · rw [if_pos h]
    · rw [if_neg h] at hw
      exact absurd rfl hw
  have hs1 : Sync.step s (Sync.SyncEv.pollTick (some vars)) =
      { s with fileContent := EnvParser.serializeEnv vars, timerPending := true } := by
    simp [Sync.step, hpo, hsome]
  have hproc : FileWatcher.processFileChange s.baseline (EnvParser.serializeEnv vars) =
      (EnvParser.serializeEnv vars,
        some (FileWatcher.calculateChanges s.fileContent (EnvParser.serializeEnv vars))) := by
    rw [hq]
    unfold FileWatcher.processFileChange
    rw [if_pos hch]
  refine ⟨by rw [hs1], by rw [hs1], ?_, ?_, ?_⟩
  · show (Sync.step (Sync.step s (Sync.SyncEv.pollTick (some vars)))
      Sync.SyncEv.debounceFire).emissions = _
    rw [hs1]
    by_cases hpull : s.pullOnly <;> simp [Sync.step, hproc, hpull]
  · show (Sync.step (Sync.step s (Sync.SyncEv.pollTick (some vars)))
      Sync.SyncEv.debounceFire).baseline = _
    rw [hs1]
    by_cases hpull : s.pullOnly <;> simp [Sync.step, hproc, hpull]
  · show (Sync.step (Sync.step (Sync.step (Sync.step s
      (Sync.SyncEv.pollTick (some vars))) Sync.SyncEv.debounceFire)
      (Sync.SyncEv.localEdit (EnvParser.serializeEnv vars)))
      Sync.SyncEv.debounceFire).emissions = _
    rw [hs1]
    by_cases hpull : s.pullOnly <;>
      simp [Sync.step, hproc, hpull, processFileChange_self]

/-- Witness for C1 (amended): the counterexample scenario instantiated —
local `A=1`, pulled remote `{B:2}` — where the feedback emission carries
added `{B}`, removed `{A}`. -/
theorem c1_no_baseline_resync_witness :
    (Sync.run ⟨str "A=1\n", str "A=1\n", false, 0, [], false, false⟩
      [Sync.SyncEv.pollTick (some [(str "B", str "2")]),
       Sync.SyncEv.debounceFire]).emissions =
      [FileWatcher.calculateChanges (str "A=1\n")
        (EnvParser.serializeEnv [(str "B", str "2")])] := by
  have h := c1_no_baseline_resync
    ⟨str "A=1\n", str "A=1\n", false, 0, [], false, false⟩
    [(str "B", str "2")] rfl rfl (by decide) (by decide)
  simpa using h.2.2.1

/-- Witness for C4: a session with one push already in flight reaches two
in-flight pushes on the next debounce expiry. -/
theorem c4_no_push_serialization_witness :
    (Sync.step ⟨str "A=2\n", str "A=1\n", true, 1, [], false, false⟩
      Sync.SyncEv.debounceFire).pushesInFlight = 2 :=
  c4_no_push_serialization
    ⟨str "A=2\n", str "A=1\n", true, 1, [], false, false⟩ rfl rfl (by decide)

/-- Claim C5: decrypting the record produced by `encryptValue` — its
ciphertext, iv and auth tag, under the same manager and hence the same
derived key — returns exactly the original string, for every plaintext,
every iv, and every instantiation of the platform crypto primitives. -/
theorem c5_decrypt_encrypt_roundtrip (C : Encryption.CryptoModel)
    (m : Encryption.EncryptionManager) (iv : List Nat) (v : Str) :
    Encryption.decryptValue C m
      (Encryption.encryptValue C m iv v).encryptedValue
      (Encryption.encryptValue C m iv v).iv
      (Encryption.encryptValue C m iv v).authTag = Except.ok v := by
  simp only [Encryption.encryptValue, Encryption.decryptValue]
  simp [ctrDecrypt_ctrEncrypt]

/-- Claim C9: when the initial read in `watch(path)` fails, the Baseline
becomes the empty string (and the watcher keeps running); the next
successfully processed change then reports every key present in the file
as added, with nothing modified or removed. -/
theorem c9_initial_read_empty_baseline :
    FileWatcher.watchInitialBaseline none = [] ∧
    ∀ c, (FileWatcher.calculateChanges [] c).vars =
      ⟨(FileWatcher.parseEnvContent c).map Prod.fst, [], []⟩ := by
  refine ⟨rfl, fun c => ?_⟩
  have h0 : FileWatcher.parseEnvContent [] = [] := rfl
  simp only [FileWatcher.calculateChanges, h0, diffVars_nil_left]

/-- Claim C6: a key is added iff present in `other` but not `base`,
modified iff present in both with different values, removed iff present in
`base` but not `other`; `diff(S, S)` is empty for every snapshot; and
membership in each component is invariant under reordering of either
map. -/
theorem c6_diff_characterization (base other : RecordMap)
    (hb : NodupKeys base) (ho : NodupKeys other) :
    (∀ k, k ∈ (FileWatcher.diffVars base other).added ↔
        hasKeyR other k = true ∧ hasKeyR base k = false) ∧
    (∀ k, k ∈ (FileWatcher.diffVars base other).modified ↔
        ∃ v w, getR base k = some v ∧ getR other k = some w ∧ v ≠ w) ∧
    (∀ k, k ∈ (FileWatcher.diffVars base other).removed ↔
        hasKeyR base k = true ∧ hasKeyR other k = false) ∧
    (∀ S, NodupKeys S → FileWatcher.diffVars S S = ⟨[], [], []⟩) ∧
    (∀ base' other', base.Perm base' → other.Perm other' → ∀ k,
        (k ∈ (FileWatcher.diffVars base' other').added ↔
          k ∈ (FileWatcher.diffVars base other).added) ∧
        (k ∈ (FileWatcher.diffVars base' other').modified ↔
          k ∈ (FileWatcher.diffVars base other).modified) ∧
        (k ∈ (FileWatcher.diffVars base' other').removed ↔
          k ∈ (FileWatcher.diffVars base other).removed)) := by
  refine ⟨mem_diffVars_added base other, fun k => mem_diffVars_modified base other k ho,
    mem_diffVars_removed base other, diffVars_self, ?_⟩
  intro base' other' hpb hpo k
  have hb' : NodupKeys base' := NodupKeys_perm hpb hb
  have ho' : NodupKeys other' := NodupKeys_perm hpo ho
  refine ⟨?_, ?_, ?_⟩
  · rw [mem_diffVars_added, mem_diffVars_added,
      hasKeyR_perm hpb k, hasKeyR_perm hpo k]
  · rw [mem_diffVars_modified base' other' k ho',
      mem_diffVars_modified base other k ho,
      getR_perm hpb hb k, getR_perm hpo ho k]
  · rw [mem_diffVars_removed, mem_diffVars_removed,
      hasKeyR_perm hpb k, hasKeyR_perm hpo k]

/-- Witness for C6: concrete maps `base = {A:1, B:2}`, `other = {B:3, C:4}`
give added `{C}`, modified `{B}`, removed `{A}`. -/
theorem c6_diff_characterization_witness :
    str "C" ∈ (FileWatcher.diffVars
      [(str "A", str "1"), (str "B", str "2")]
      [(str "B", str "3"), (str "C", str "4")]).added ∧
    str "B" ∈ (FileWatcher.diffVars
      [(str "A", str "1"), (str "B", str "2")]
      [(str "B", str "3"), (str "C", str "4")]).modified ∧
    str "A" ∈ (FileWatcher.diffVars
      [(str "A", str "1"), (str "B", str "2")]
      [(str "B", str "3"), (str "C", str "4")]).removed := by
  have h := c6_diff_characterization
    [(str "A", str "1"), (str "B", str "2")]
    [(str "B", str "3"), (str "C", str "4")] (by decide) (by decide)
  exact ⟨(h.1 (str "C")).mpr (by decide),
    (h.2.1 (str "B")).mpr ⟨str "2", str "3", by decide, by decide, by decide⟩,
    (h.2.2.1 (str "A")).mpr (by decide)⟩

/-- The batch loop fails — naming a failing record's key — whenever any
record of the batch fails to decrypt, from any accumulator state. -/
theorem decryptVariablesAux_error (C : Encryption.CryptoModel)
    (m : Encryption.EncryptionManager) (items : List Encryption.EncryptedVariable)
    (it : Encryption.EncryptedVariable) (hit : it ∈ items)
    (hfail : Encryption.decryptValue C m it.encryptedValue it.iv it.authTag =
      Except.error Encryption.DecryptionError.authTagMismatch) :
    ∀ acc, ∃ bad ∈ items,
      Encryption.decryptValue C m bad.encryptedValue bad.iv bad.authTag =
        Except.error Encryption.DecryptionError.authTagMismatch ∧
      Encryption.decryptVariablesAux C m acc items =
        Except.error (Encryption.failMsg bad.key) := by
  induction items with
  | nil => simp at hit
  | cons x rest ih =>
    intro acc
    cases hx : Encryption.decryptValue C m x.encryptedValue x.iv x.authTag with
    | ok v =>
      have hrest : it ∈ rest := by
        rcases List.mem_cons.mp hit with h | h
        · rw [h] at hfail
          rw [hfail] at hx
          exact Except.noConfusion hx
        · exact h
      obtain ⟨bad, hb, hbf, he⟩ := ih hrest (insertR acc x.key v)
      refine ⟨bad, List.mem_cons_of_mem x hb, hbf, ?_⟩
      rw [← he]
      simp only [Encryption.decryptVariablesAux, hx]
    | error e =>
      cases e
      refine ⟨x, List.mem_cons_self x rest, hx, ?_⟩
      simp only [Encryption.decryptVariablesAux, hx]

/-- Claim C7: decryption fails with the authentication error — never
returning a value — whenever the supplied tag differs from the tag the
cipher recomputes over the (possibly corrupted) ciphertext and iv;
conversely a returned value certifies a matching tag; and when a batch
contains a failing record, `decryptVariables` surfaces an error naming a
failing record's key rather than silently dropping it. -/
theorem c7_decryption_errors (C : Encryption.CryptoModel)
    (m : Encryption.EncryptionManager) :
    (∀ ev iv tg, tg ≠ C.tagOf (Encryption.deriveKey C m) iv ev →
      Encryption.decryptValue C m ev iv tg =
        Except.error Encryption.DecryptionError.authTagMismatch) ∧
    (∀ ev iv tg v, Encryption.decryptValue C m ev iv tg = Except.ok v →
      tg = C.tagOf (Encryption.deriveKey C m) iv ev) ∧
    (∀ items it, it ∈ items →
      Encryption.decryptValue C m it.encryptedValue it.iv it.authTag =
        Except.error Encryption.DecryptionError.authTagMismatch →
      ∃ bad ∈ items,
        Encryption.decryptValue C m bad.encryptedValue bad.iv bad.authTag =
          Except.error Encryption.DecryptionError.authTagMismatch ∧
        Encryption.decryptVariables C m items =
          Except.error (Encryption.failMsg bad.key)) := by
  refine ⟨?_, ?_, ?_⟩
  · intro ev iv tg htg
    unfold Encryption.decryptValue
    rw [if_neg htg]
  · intro ev iv tg v hok
    unfold Encryption.decryptValue at hok
    by_cases h : tg = C.tagOf (Encryption.deriveKey C m) iv ev
    · exact h
    · rw [if_neg h] at hok
      exact Except.noConfusion hok
  · intro items it hit hfail
    exact decryptVariablesAux_error C m items it hit hfail []

/-- Witness for C7: under a model whose tag function is constantly `[]`,
a record carrying tag `[1]` fails, and the one-record batch surfaces
`Failed to decrypt variable K`. -/
theorem c7_decryption_errors_witness :
    Encryption.decryptVariables
      ⟨fun _ => [], fun _ _ _ => 0, fun _ _ _ => []⟩ ⟨str "p"⟩
      [⟨str "K", [], [], [1], false⟩] =
      Except.error (Encryption.failMsg (str "K")) := by
  have h := (c7_decryption_errors
    ⟨fun _ => [], fun _ _ _ => 0, fun _ _ _ => []⟩ ⟨str "p"⟩).2.2
    [⟨str "K", [], [], [1], false⟩] ⟨str "K", [], [], [1], false⟩
    (List.mem_singleton.mpr rfl) rfl
  obtain ⟨bad, hb, _, he⟩ := h
  rw [List.mem_singleton] at hb
  rw [hb] at he
  exact he

section RoundTrip

theorem head?_append_left (k r : Str) (hk : k ≠ []) :
    (k ++ r).head? = k.head? := by
  cases k with
  | nil => exact absurd rfl hk
  | cons a t => rfl

theorem getLast?_append_cons (k : Str) (c : Char) (v : Str) :
    (k ++ c :: v).getLast? = (c :: v).getLast? := by
  rw [List.getLast?_eq_head?_reverse, List.getLast?_eq_head?_reverse,
    List.reverse_append]
  cases hv : (c :: v).reverse with
  | nil => simp at hv
  | cons b u => simp [hv]

theorem getLast?_cons_ne_nil (c : Char) (v : Str) (hv : v ≠ []) :
    (c :: v).getLast? = v.getLast? := by
  rw [List.getLast?_eq_head?_reverse, List.getLast?_eq_head?_reverse,
    List.reverse_cons]
  rw [head?_append_left]
  intro h
  exact hv (by simpa using congrArg List.reverse h)

/-- The option holds no whitespace character. -/
def notWsOpt (o : Option Char) : Bool :=
  o.all fun ch => !ch.isWhitespace

/-- The option holds no whitespace and no quote character. -/
def notWsQuoteOpt (o : Option Char) : Bool :=
  o.all fun ch => !ch.isWhitespace && decide (ch ≠ '\'') && decide (ch ≠ '"')

theorem all_opt_some {p : Char → Bool} {o : Option Char} (h : o.all p = true) :
    ∀ ch, o = some ch → p ch = true := by
  intro ch he
  subst he
  simpa [Option.all] using h

/-- A key survives the round trip: non-empty, free of newlines and `=`,
not comment-like, and not starting or ending in whitespace. -/
def GoodKey (k : Str) : Prop :=
  k ≠ [] ∧ '\n' ∉ k ∧ '=' ∉ k ∧ k.head? ≠ some '#' ∧
  notWsOpt k.head? = true ∧ notWsOpt k.getLast? = true

/-- A value survives the round trip: free of newlines, and not starting or
ending in whitespace or a quote character. -/
def GoodValue (v : Str) : Prop :=
  '\n' ∉ v ∧ notWsQuoteOpt v.head? = true ∧ notWsQuoteOpt v.getLast? = true

instance (k : Str) : Decidable (GoodKey k) := by
  unfold GoodKey
  infer_instance

instance (v : Str) : Decidable (GoodValue v) := by
  unfold GoodValue
  infer_instance

theorem stripQuotes_eq_self (v : Str)
    (hh : notWsQuoteOpt v.head? = true)
    (hl : notWsQuoteOpt v.getLast? = true) :
    EnvParser.stripQuotes v = v := by
  unfold EnvParser.stripQuotes
  have h1 : ¬(v.head? = some '\'' ∨ v.head? = some '"') := by
    rintro (h | h) <;>
      simpa using all_opt_some hh _ h
  rw [if_neg h1]
  have h2 : ¬(v.getLast? = some '\'' ∨ v.getLast? = some '"') := by
    rintro (h | h) <;>
      simpa using all_opt_some hl _ h
  rw [if_neg h2]

theorem newline_not_mem_line (k v : Str) (hk : GoodKey k) (hv : GoodValue v) :
    '\n' ∉ k ++ '=' :: v := by
  intro h
  rcases List.mem_append.mp h with h | h
  · exact hk.2.1 h
  · rcases List.mem_cons.mp h with h | h
    · exact absurd h.symm (by decide)
    · exact hv.1 h

theorem trimC_line (k v : Str) (hk : GoodKey k) (hv : GoodValue v) :
    trimC (k ++ '=' :: v) = k ++ '=' :: v := by
  apply trimC_eq_self
  · intro ch hch
    rw [head?_append_left k ('=' :: v) hk.1] at hch
    simpa using all_opt_some hk.2.2.2.2.1 ch hch
  · intro ch hch
    rw [getLast?_append_cons k '=' v] at hch
    cases v with
    | nil =>
      simp only [List.getLast?_singleton, Option.some.injEq] at hch
      subst hch
      decide
    | cons b u =>
      rw [getLast?_cons_ne_nil '=' (b :: u) (by simp)] at hch
      have h2 := all_opt_some hv.2.2 ch hch
      simp only [Bool.and_eq_true, Bool.not_eq_true'] at h2
      simp [h2.1.1]

/-- Processing a well-formed `KEY=VALUE` line appends the entry. -/
theorem parseLineF_good (acc : RecordMap) (k v : Str) (hk : GoodKey k)
    (hv : GoodValue v) (hacc : hasKeyR acc k = false) :
    EnvParser.parseLineF acc (k ++ '=' :: v) = acc ++ [(k, v)] := by
  have htrim : trimC (k ++ '=' :: v) = k ++ '=' :: v := trimC_line k v hk hv
  have hktrim : trimC k = k := by
    apply trimC_eq_self
    · intro ch hch
      simpa using all_opt_some hk.2.2.2.2.1 ch hch
    · intro ch hch
      simpa using all_opt_some hk.2.2.2.2.2 ch hch
  have hvtrim : trimC v = v := by
    apply trimC_eq_self
    · intro ch hch
      have h2 := all_opt_some hv.2.1 ch hch
      simp only [Bool.and_eq_true, Bool.not_eq_true'] at h2
      simp [h2.1.1]
    · intro ch hch
      have h2 := all_opt_some hv.2.2 ch hch
      simp only [Bool.and_eq_true, Bool.not_eq_true'] at h2
      simp [h2.1.1]
  unfold EnvParser.parseLineF
  rw [htrim]
  rw [if_pos ?hcond]
  case hcond =>
    refine ⟨by simp [hk.1], ?_⟩
    rw [head?_append_left k ('=' :: v) hk.1]
    exact hk.2.2.2.1
  rw [splitOnC_append_sep '=' k v hk.2.2.1]
  show (if k ≠ [] ∧ splitOnC '=' v ≠ [] then
    insertR acc (trimC k) (EnvParser.stripQuotes (trimC (joinC '=' (splitOnC '=' v))))
    else acc) = acc ++ [(k, v)]
  rw [if_pos ⟨hk.1, splitOnC_ne_nil '=' v⟩]
  rw [joinC_splitOnC, hvtrim,
    stripQuotes_eq_self v hv.2.1 hv.2.2, hktrim,
    insertR_of_not_has acc k v hacc]

theorem hasKeyR_eq_false_of_nodup_middle (acc : RecordMap) (k v : Str)
    (m : RecordMap) (h : NodupKeys (acc ++ (k, v) :: m)) :
    hasKeyR acc k = false := by
  unfold NodupKeys at h
  rw [List.map_append, List.map_cons, List.nodup_append] at h
  rw [hasKeyR_eq_false_iff]
  intro w hw
  have h1 : k ∈ acc.map Prod.fst := by
    simpa using List.mem_map_of_mem Prod.fst hw
  exact h.2.2 h1 (by simp)

theorem joinC_cons_cons (c : Char) (x y : Str) (ys : List Str) :
    joinC c (x :: y :: ys) = x ++ c :: joinC c (y :: ys) := rfl

theorem serializeEnv_cons (k v : Str) (rest : RecordMap) (hr : rest ≠ []) :
    EnvParser.serializeEnv ((k, v) :: rest) =
      (k ++ '=' :: v) ++ '\n' :: EnvParser.serializeEnv rest := by
  cases rest with
  | nil => exact absurd rfl hr
  | cons q t =>
    show joinC '\n' ((k ++ '=' :: v) :: (q.1 ++ '=' :: q.2) ::
      (t.map fun p => p.1 ++ '=' :: p.2)) ++ ['\n'] = _
    rw [joinC_cons_cons, List.append_assoc]
    rfl

theorem serializeEnv_singleton (k v : Str) :
    EnvParser.serializeEnv [(k, v)] = (k ++ '=' :: v) ++ ['\n'] := rfl

theorem parseLineF_nil (acc : RecordMap) : EnvParser.parseLineF acc [] = acc := rfl

theorem parse_serialize_aux (m : RecordMap) :
    ∀ acc : RecordMap, NodupKeys (acc ++ m) →
    (∀ kv ∈ m, GoodKey kv.1 ∧ GoodValue kv.2) →
    (splitOnC '\n' (EnvParser.serializeEnv m)).foldl EnvParser.parseLineF acc =
      acc ++ m := by
  induction m with
  | nil =>
    intro acc _ _
    show (splitOnC '\n' ['\n']).foldl EnvParser.parseLineF acc = acc ++ []
    rw [splitOnC_cons_sep]
    simp [List.foldl, parseLineF_nil]
  | cons kv rest ih =>
    intro acc hnd hwf
    obtain ⟨k, v⟩ := kv
    have hk : GoodKey k := (hwf (k, v) (List.mem_cons_self _ _)).1
    have hv : GoodValue v := (hwf (k, v) (List.mem_cons_self _ _)).2
    have hline : '\n' ∉ k ++ '=' :: v := newline_not_mem_line k v hk hv
    have hacc : hasKeyR acc k = false :=
      hasKeyR_eq_false_of_nodup_middle acc k v rest hnd
    have hstep : EnvParser.parseLineF acc (k ++ '=' :: v) = acc ++ [(k, v)] :=
      parseLineF_good acc k v hk hv hacc
    cases hr : rest with
    | nil =>
      subst hr
      rw [serializeEnv_singleton k v,
        show (k ++ '=' :: v) ++ ['\n'] = (k ++ '=' :: v) ++ '\n' :: [] from rfl,
        splitOnC_append_sep '\n' (k ++ '=' :: v) [] hline]
      show EnvParser.parseLineF (EnvParser.parseLineF acc (k ++ '=' :: v)) [] = _
      rw [parseLineF_nil, hstep]
    | cons q t =>
      rw [← hr]
      have hr' : rest ≠ [] := by rw [hr]; simp
      rw [serializeEnv_cons k v rest hr',
        splitOnC_append_sep '\n' (k ++ '=' :: v) _ hline]
      show (splitOnC '\n' (EnvParser.serializeEnv rest)).foldl
        EnvParser.parseLineF (EnvParser.parseLineF acc (k ++ '=' :: v)) = _
      rw [hstep]
      have hnd' : NodupKeys ((acc ++ [(k, v)]) ++ rest) := by
        rw [List.append_assoc]
        exact hnd
      rw [ih (acc ++ [(k, v)]) hnd'
        (fun kv' hkv' => hwf kv' (List.mem_cons_of_mem _ hkv'))]
      simp

end RoundTrip

/-- Claim C8 counterexample: the map `{A: "x"}` — value delimited by
double quotes — serializes to `A="x"` and parses back to `{A: x}`: the
parser's quote stripping makes the round trip lossy, so it does not hold
for every key and value. -/
theorem c8_counterexample :
    EnvParser.parseEnvFile (EnvParser.serializeEnv [(str "A", str "\"x\"")]) ≠
      [(str "A", str "\"x\"")] ∧
    EnvParser.parseEnvFile (EnvParser.serializeEnv [(str "A", str "\"x\"")]) =
      [(str "A", str "x")] := by
  constructor
  · decide
  · rfl

/-- Claim C8 (amended): serializing a map to newline-delimited `KEY=VALUE`
records and parsing the result back restores the map exactly, provided
each key is non-empty, contains no newline or `=`, does not begin with
`#`, and neither begins nor ends in whitespace, and each value contains
no newline and neither begins nor ends in whitespace or a quote
character; blank lines and lines whose trimmed form begins with `#` are
ignored by the parser, and the first `=` of a line splits key from
value. -/
theorem c8_roundtrip (m : RecordMap) (hnd : NodupKeys m)
    (hwf : ∀ kv ∈ m, GoodKey kv.1 ∧ GoodValue kv.2) :
    EnvParser.parseEnvFile (EnvParser.serializeEnv m) = m ∧
    ∀ vars line, (trimC line = [] ∨ (trimC line).head? = some '#') →
      EnvParser.parseLineF vars line = vars := by
  constructor
  · unfold EnvParser.parseEnvFile
    have h := parse_serialize_aux m [] (by simpa using hnd) hwf
    simpa using h
  · intro vars line hskip
    unfold EnvParser.parseLineF
    rw [if_neg]
    rintro ⟨h1, h2⟩
    rcases hskip with h | h
    · exact h1 h
    · exact h2 h

/-- Witness for C8: the two-entry map `{API_URL: https://x.io/v1,
RETRIES: 3}` — well-formed keys and values — survives the round trip. -/
theorem c8_roundtrip_witness :
    EnvParser.parseEnvFile (EnvParser.serializeEnv
      [(str "API_URL", str "https://x.io/v1"), (str "RETRIES", str "3")]) =
      [(str "API_URL", str "https://x.io/v1"), (str "RETRIES", str "3")] :=
  (c8_roundtrip
    [(str "API_URL", str "https://x.io/v1"), (str "RETRIES", str "3")]
    (by decide) (by decide)).1

end Envman



